import Mathlib

/-!
Shallow embedding of the true-inflation-toolkit pipeline
(src/personal_inflation_fred_plus.py and src/personal_inflation.py).

Python floats are modelled by an arbitrary linear ordered field (instantiated
at the rationals for executable checks and at the reals where the code calls
math.exp and math.log).  The float NaN sentinel that the code uses to mean
"uncomputable" is modelled by Option: a none result stands for the NaN the
Python function returns.  Python dicts that the code builds incrementally are
modelled by insertion-ordered association lists.  Division by zero follows the
Lean convention x / 0 = 0; the one place where the Python code can actually
divide by zero (a zero total category weight in compute_weighted, which raises
ZeroDivisionError there) is modelled explicitly by compute_weighted_exn, whose
Except.error stands for the raised exception.
-/

-- Rational arithmetic is sealed behind irreducibility by default; witnesses
-- evaluate concrete runs of the embedded functions by kernel reduction, so
-- the arithmetic definitions are unsealed for this file.
unseal Rat.mul Rat.inv Rat.add Rat.sub Rat.ofScientific

/-- A row (item, a, b) as built by main: item name, year-A value, year-B value. -/
structure Row (α : Type) where
  item : String
  a : α
  b : α
deriving DecidableEq, Repr

/-- The SERIES table of personal_inflation_fred_plus.py: item, unit, FRED series id. -/
def SERIES : List (String × String × String) :=
  [("Bread (white, pan)", "lb", "APU0000702111"),
   ("Chicken breast, boneless", "lb", "APU0000FF1101"),
   ("Rice, white, long-grain", "lb", "APU0000701312"),
   ("Coffee, ground", "lb", "APU0000717311"),
   ("Potatoes", "5 lb", "APU0000712112"),
   ("Bananas", "lb", "APU0000711211"),
   ("Peanut butter", "16 oz", "APU0000716141"),
   ("Eggs, large", "dozen", "APU0000708111"),
   ("Milk (whole)", "gallon", "APU0000709111"),
   ("Ground beef (100% beef)", "lb", "APU0000703112"),
   ("Electricity (residential)", "cents/kWh", "APU000072610"),
   ("Natural gas (residential), per therm", "$/therm", "APU000072620"),
   ("Gasoline, regular", "gallon", "APU000074714")]

/-- Does the character list start with the given pattern (Python substring step). -/
def leadsWith : List Char → List Char → Bool
  | [], _ => true
  | _ :: _, [] => false
  | c :: cs, d :: ds => c == d && leadsWith cs ds

/-- Python string containment (needle in haystack) on character lists. -/
def hasSub (needle : List Char) : List Char → Bool
  | [] => needle.isEmpty
  | d :: ds => leadsWith needle (d :: ds) || hasSub needle ds

/-- CATEGORY_KEYWORDS: the ordered (category, keyword list) rules. -/
def CATEGORY_KEYWORDS : List (String × List String) :=
  [("food_at_home", ["bread", "chicken", "rice", "coffee", "potatoes", "banana",
      "peanut butter", "egg", "milk", "ground beef", "beef"]),
   ("utilities_electric", ["electricity"]),
   ("utilities_gas", ["natural gas", "per therm"]),
   ("transport_fuel", ["gasoline"])]

/-- Does a (category, keyword list) rule match a name: some keyword is a
substring of the lowercased name, as in the inner loop of categorize_item
(lowercasing is per character, as Python str.lower acts on these names). -/
def ruleMatches (q : String × List String) (name : String) : Bool :=
  q.2.any (fun needle => hasSub needle.data (name.data.map Char.toLower))

/-- categorize_item: first matching rule wins, otherwise "unclassified". -/
def categorize_item (name : String) : String :=
  match CATEGORY_KEYWORDS.find? (fun q => ruleMatches q name) with
  | some q => q.1
  | none => "unclassified"

/-- DEFAULT_WEIGHTS: the default necessities category weights. -/
def DEFAULT_WEIGHTS (α : Type) [DivisionRing α] : List (String × α) :=
  [("food_at_home", 0.45), ("utilities_electric", 0.20),
   ("utilities_gas", 0.15), ("transport_fuel", 0.20)]

/-- Dict lookup on an association list (first binding wins). -/
def alGet {β : Type} : List (String × β) → String → Option β
  | [], _ => none
  | p :: rest, k => if p.1 == k then some p.2 else alGet rest k

/-- Python membership test (k in d) on an association list. -/
def alHas {β : Type} (d : List (String × β)) (k : String) : Bool :=
  (alGet d k).isSome

/-- cat_weights[c] for a category known to be present (0 is never reached on
the inputs compute_weighted feeds it, since membership was checked first). -/
def wval {α : Type} [Zero α] (cw : List (String × α)) (c : String) : α :=
  (alGet cw c).getD 0

/-- by_cat.setdefault(cat, []).append(v): append v to the bucket of key k,
creating the bucket at the end when the key is new (dict insertion order). -/
def addToCat {α : Type} (d : List (String × List α)) (k : String) (v : α) :
    List (String × List α) :=
  match d with
  | [] => [(k, [v])]
  | (k₀, vs) :: rest =>
      if k₀ == k then (k₀, vs ++ [v]) :: rest else (k₀, vs) :: addToCat rest k v

/-- The first loop of compute_weighted: walk the rows carrying the by_cat dict,
skipping rows whose category has no weight and rows that are not usable. -/
def buildByCat {α : Type} [LinearOrderedField α] (cw : List (String × α)) :
    List (Row α) → List (String × List α) → List (String × List α)
  | [], d => d
  | r :: rest, d =>
      if alHas cw (categorize_item r.item) then
        if 0 < r.a ∧ 0 < r.b then
          buildByCat cw rest (addToCat d (categorize_item r.item) (r.b / r.a))
        else buildByCat cw rest d
      else buildByCat cw rest d

/-- compute_weighted: Laspeyres-style weighted percentage change plus the
normalized category weights actually used.  none models the (nan, empty dict)
return for an empty by_cat.  When the weights of the present categories sum to
zero the Python code raises ZeroDivisionError at the normalization step; this
definition divides by zero in the Lean convention instead (yielding 0), and
the companion compute_weighted_exn below models the raising path, the two
agreeing wherever the total is nonzero. -/
def compute_weighted {α : Type} [LinearOrderedField α] (rows : List (Row α))
    (cw : List (String × α)) : Option (α × List (String × α)) :=
  let by_cat := buildByCat cw rows []
  if by_cat.isEmpty then none
  else
    let present := by_cat.map Prod.fst
    let total_w := (present.map (fun c => wval cw c)).sum
    let norm_w := present.map (fun c => (c, wval cw c / total_w))
    let weighted := (by_cat.map (fun p =>
        if p.2.isEmpty then 0
        else (wval cw p.1 / total_w) *
          ((p.2.map (fun r => (r - 1) * (1 / (p.2.length : α)))).sum))).sum
    some (weighted, norm_w)

/-- compute_weighted with the Python error path made explicit: the dict
comprehension normalizing the weights divides every present weight by
total_w, and a zero total makes that float division raise ZeroDivisionError,
so the call produces no value at all.  Except.error models that exception;
on every other input the result is Except.ok of what compute_weighted
returns. -/
def compute_weighted_exn {α : Type} [LinearOrderedField α] (rows : List (Row α))
    (cw : List (String × α)) :
    Except Unit (Option (α × List (String × α))) :=
  let by_cat := buildByCat cw rows []
  if by_cat.isEmpty then Except.ok none
  else
    let present := by_cat.map Prod.fst
    let total_w := (present.map (fun c => wval cw c)).sum
    if total_w = 0 then Except.error ()
    else
      let norm_w := present.map (fun c => (c, wval cw c / total_w))
      let weighted := (by_cat.map (fun p =>
          if p.2.isEmpty then 0
          else (wval cw p.1 / total_w) *
            ((p.2.map (fun r => (r - 1) * (1 / (p.2.length : α)))).sum))).sum
      Except.ok (some (weighted, norm_w))

/-- The rels list built by the loop of compute_unweighted: price relatives of
the usable rows, in row order. -/
def rels {α : Type} [LinearOrderedField α] : List (Row α) → List α
  | [] => []
  | r :: rest =>
      if 0 < r.a ∧ 0 < r.b then r.b / r.a :: rels rest else rels rest

/-- compute_unweighted: (arithmetic mean of pct changes, geometric mean of
relatives minus one); none models the (nan, nan) return for an empty rels. -/
noncomputable def compute_unweighted (rows : List (Row ℝ)) : Option (ℝ × ℝ) :=
  let rs := rels rows
  if rs.isEmpty then none
  else some (((rs.map (fun r => r - 1)).sum) / rs.length,
             Real.exp ((rs.map Real.log).sum / rs.length) - 1)

/-- purchasing_power_after: none models a NaN (or None) pct_change, for which
the code returns (nan, nan). -/
def purchasing_power_after {α : Type} [DivisionRing α] (pct_change : Option α) :
    Option (α × α) :=
  match pct_change with
  | none => none
  | some p => some (1 / (1 + p), 1 - 1 / (1 + p))

/-- Is an observation value one of the literal missing markers "" or "."
(the membership test o.value not in two-element tuple, negated). -/
def isMissing (v : String) : Bool :=
  v == "" || v == "."

/-- The pure part of year_avg: given the observation value strings of the
parsed response and the string-to-number conversion (Python float), drop the
missing markers, convert, and average; none models the float nan returned
when no usable observation remains. -/
def year_avg {α : Type} [LinearOrderedField α] (val : String → α)
    (obsVals : List String) : Option α :=
  let obs := (obsVals.filter (fun v => !isMissing v)).map val
  if obs.isEmpty then none else some (obs.sum / obs.length)

/-- The message passed to sys.exit by get_key. -/
def keyMsg : String :=
  "Set FRED_API_KEY in your environment (export FRED_API_KEY=...)."

/-- get_key: the environment variable is none when unset; Python if not key
also treats the empty string as missing. -/
def get_key (env : Option String) : Except String String :=
  match env with
  | none => Except.error keyMsg
  | some k => if k = "" then Except.error keyMsg else Except.ok k

/-- The top-of-file credential check of personal_inflation.py (module scope,
before any request is issued). -/
def legacy_key_check (env : Option String) : Except String String :=
  match env with
  | none => Except.error "Set FRED_API_KEY in your environment"
  | some k =>
      if k = "" then Except.error "Set FRED_API_KEY in your environment"
      else Except.ok k

/-- The fetch phase of main, as the list of outbound (series id, year) calls
it issues: get_key runs first, and a missing credential exits (error, carrying
the message) before any call.  The second component is the exit message for
the sys.exit path. -/
def main_fetch_trace (env : Option String) (yearA yearB : Int) :
    List (String × Int) × Option String :=
  match get_key env with
  | Except.error m => ([], some m)
  | Except.ok _ =>
      (SERIES.flatMap (fun e => [(e.2.2, yearA), (e.2.2, yearB)]), none)

/-- The exit status of a run whose key check produced the given outcome:
sys.exit with a message exits with status 1. -/
def exit_status (r : Option String) : Nat :=
  match r with
  | some _ => 1
  | none => 0

/-- Stable insertion step: x goes in front of the first y with le x y,
after every earlier y (ties keep original order). -/
def ordIns {β : Type} (le : β → β → Bool) (x : β) : List β → List β
  | [] => [x]
  | y :: ys => if le x y then x :: y :: ys else y :: ordIns le x ys

/-- Python sorted(l, key) as the (unique) stable sort for the boolean
preorder le. -/
def pysort {β : Type} (le : β → β → Bool) : List β → List β
  | [] => []
  | x :: xs => ordIns le x (pysort le xs)

/-- The (name, pct change) pairs zipped in main before the top-mover report. -/
def pct_pairs {α : Type} [LinearOrderedField α] (rows : List (Row α)) :
    List (String × α) :=
  rows.map (fun r => (r.item, r.b / r.a - 1))

/-- Top item increases in main: sorted descending (reverse=True, stable),
first five. -/
def top_increases {α : Type} [LinearOrderedField α] (rows : List (Row α)) :
    List (String × α) :=
  (pysort (fun x y => decide (y.2 ≤ x.2)) (pct_pairs rows)).take 5

/-- Top item decreases in main: sorted ascending (stable), first five. -/
def top_decreases {α : Type} [LinearOrderedField α] (rows : List (Row α)) :
    List (String × α) :=
  (pysort (fun x y => decide (x.2 ≤ y.2)) (pct_pairs rows)).take 5

/-- C6: year_avg drops exactly the missing markers (empty string, single dot),
converts the remaining value strings and returns their arithmetic mean, is
none (the NaN sentinel) exactly when no usable observation remains, and a
missing marker is excluded rather than averaged in as a zero. -/
theorem C6_year_avg_mean (val : String → ℚ) (l : List String) :
    (year_avg val l =
      (if l.filter (fun v => !(v == "" || v == ".")) = [] then none
       else some (((l.filter (fun v => !(v == "" || v == "."))).map val).sum /
                  (l.filter (fun v => !(v == "" || v == "."))).length)))
    ∧ year_avg val ("" :: l) = year_avg val l
    ∧ year_avg val ("." :: l) = year_avg val l := by
  refine ⟨?_, ?_, ?_⟩
  · simp only [year_avg, isMissing]
    by_cases h : l.filter (fun v => !(v == "" || v == ".")) = []
    · simp [h]
    · simp [h, List.isEmpty_iff]
  · simp [year_avg, isMissing]
  · simp [year_avg, isMissing]

/-- C8: for a non-negative percentage change p the purchasing-power transform
returns remaining = 1/(1+p) and loss = 1 - remaining, the two components sum
to one, and a NaN input (modelled by none) propagates to a NaN pair (none). -/
theorem C8_purchasing_power (p : ℝ) (hp : 0 ≤ p) :
    purchasing_power_after (some p) = some (1 / (1 + p), 1 - 1 / (1 + p))
    ∧ (1:ℝ) + p ≠ 0
    ∧ (∀ rem loss, purchasing_power_after (some p) = some (rem, loss) →
        rem + loss = 1)
    ∧ purchasing_power_after (none : Option ℝ) = none := by
  refine ⟨rfl, by linarith, ?_, rfl⟩
  intro rem loss h
  simp only [purchasing_power_after, Option.some.injEq, Prod.mk.injEq] at h
  obtain ⟨h1, h2⟩ := h
  subst h1; subst h2; ring

/-- C8 witness at p = 1. -/
theorem C8_purchasing_power_witness :
    purchasing_power_after (some (1:ℝ)) = some (1 / (1 + 1), 1 - 1 / (1 + 1))
    ∧ (1:ℝ) + 1 ≠ 0
    ∧ (∀ rem loss, purchasing_power_after (some (1:ℝ)) = some (rem, loss) →
        rem + loss = 1)
    ∧ purchasing_power_after (none : Option ℝ) = none :=
  C8_purchasing_power 1 zero_le_one

/-- C9: with the credential unset or empty, the run exits with status 1 and
the instructive message before issuing any network call (empty call trace);
the simpler script's module-level check errors with its own message too. -/
theorem C9_missing_key (env : Option String) (h : env = none ∨ env = some "")
    (yearA yearB : Int) :
    main_fetch_trace env yearA yearB = ([], some keyMsg)
    ∧ exit_status (main_fetch_trace env yearA yearB).2 = 1
    ∧ legacy_key_check env = Except.error "Set FRED_API_KEY in your environment" := by
  rcases h with h | h <;> subst h <;> exact ⟨rfl, rfl, rfl⟩

/-- C9 witness: the unset-credential run for the default year pair. -/
theorem C9_missing_key_witness :
    main_fetch_trace none 2000 2024 = ([], some keyMsg)
    ∧ exit_status (main_fetch_trace none 2000 2024).2 = 1
    ∧ legacy_key_check none = Except.error "Set FRED_API_KEY in your environment" :=
  C9_missing_key none (Or.inl rfl) 2000 2024

/-- Sum of pointwise decrements: subtracting one from every entry lowers the
sum by the length. -/
lemma sum_map_sub_one {α : Type} [LinearOrderedField α] (l : List α) :
    (l.map (fun r => r - 1)).sum = l.sum - l.length := by
  induction l with
  | nil => simp
  | cons x xs ih =>
      simp only [List.map_cons, List.sum_cons, ih, List.length_cons]
      push_cast
      ring

/-- Dividing every mapped entry by the same denominator divides the sum. -/
lemma sum_map_div {α : Type} [LinearOrderedField α] {β : Type} (l : List β)
    (f : β → α) (T : α) :
    (l.map (fun c => f c / T)).sum = (l.map f).sum / T := by
  induction l with
  | nil => simp
  | cons x xs ih =>
      simp only [List.map_cons, List.sum_cons, ih]
      rw [div_add_div_same]

/-- A sum of non-negative mapped entries with one positive member is positive. -/
lemma sum_map_pos_of_mem {α : Type} [LinearOrderedField α] {β : Type}
    (l : List β) (f : β → α) (hall : ∀ x ∈ l, 0 ≤ f x)
    (x : β) (hx : x ∈ l) (hfx : 0 < f x) : 0 < (l.map f).sum := by
  induction l with
  | nil => simp at hx
  | cons y ys ih =>
      simp only [List.map_cons, List.sum_cons]
      rcases List.mem_cons.mp hx with h | h
      · subst h
        have : (0:α) ≤ (ys.map f).sum :=
          List.sum_nonneg (by
            intro z hz
            obtain ⟨u, hu, rfl⟩ := List.mem_map.mp hz
            exact hall u (List.mem_cons_of_mem _ hu))
        linarith
      · have h1 : 0 ≤ f y := hall y (List.mem_cons_self _ _)
        have h2 := ih (fun z hz => hall z (List.mem_cons_of_mem _ hz)) h
        linarith

/-- The usable rows keep their relatives, in order. -/
lemma rels_all_usable {α : Type} [LinearOrderedField α] (rows : List (Row α))
    (h : ∀ r ∈ rows, 0 < r.a ∧ 0 < r.b) :
    rels rows = rows.map (fun r => r.b / r.a) := by
  induction rows with
  | nil => rfl
  | cons r rest ih =>
      simp only [rels, List.map_cons]
      rw [if_pos (h r (List.mem_cons_self _ _)),
        ih (fun x hx => h x (List.mem_cons_of_mem _ hx))]

/-- Without a usable row nothing is collected. -/
lemma rels_no_usable {α : Type} [LinearOrderedField α] (rows : List (Row α))
    (h : ∀ r ∈ rows, ¬(0 < r.a ∧ 0 < r.b)) : rels rows = [] := by
  induction rows with
  | nil => rfl
  | cons r rest ih =>
      simp only [rels]
      rw [if_neg (h r (List.mem_cons_self _ _))]
      exact ih (fun x hx => h x (List.mem_cons_of_mem _ hx))

/-- The relatives that the by_cat bucket of category c ends up holding,
described declaratively from the spec: the usable rows whose item
categorizes to c, in row order, mapped to b/a. -/
def spec_cat_rels {α : Type} [LinearOrderedField α] (rows : List (Row α))
    (c : String) : List α :=
  (rows.filter (fun r =>
    categorize_item r.item == c && (decide (0 < r.a) && decide (0 < r.b)))).map
    (fun r => r.b / r.a)

/-- Extending an optional bucket by a contribution list: an absent bucket
stays absent only when the contribution is empty. -/
def optExtend {α : Type} (o : Option (List α)) (contrib : List α) :
    Option (List α) :=
  match o with
  | some vs => some (vs ++ contrib)
  | none => if contrib.isEmpty then none else some contrib

lemma optExtend_nil {α : Type} (o : Option (List α)) : optExtend o [] = o := by
  cases o <;> simp [optExtend]

lemma alGet_addToCat {α : Type} (d : List (String × List α)) (k k₂ : String)
    (v : α) :
    alGet (addToCat d k v) k₂ =
      if k₂ = k then some ((alGet d k₂).getD [] ++ [v]) else alGet d k₂ := by
  induction d with
  | nil =>
      simp only [addToCat, alGet]
      by_cases h : k₂ = k
      · subst h; simp
      · simp [h, Ne.symm h]
  | cons p rest ih =>
      obtain ⟨k₀, vs⟩ := p
      simp only [addToCat]
      by_cases h0 : k₀ = k
      · subst h0
        simp only [beq_self_eq_true, if_true]
        by_cases h2 : k₂ = k₀
        · subst h2; simp [alGet]
        · simp [alGet, h2, Ne.symm h2]
      · rw [if_neg (by simpa using h0)]
        simp only [alGet]
        by_cases h2 : k₀ = k₂
        · subst h2
          simp [h0]
        · simp [h2, ih]

lemma alGet_buildByCat {α : Type} [LinearOrderedField α] (cw : List (String × α))
    (rows : List (Row α)) (d : List (String × List α)) (c : String) :
    alGet (buildByCat cw rows d) c =
      optExtend (alGet d c)
        (if alHas cw c then spec_cat_rels rows c else []) := by
  induction rows generalizing d with
  | nil => simp [buildByCat, spec_cat_rels, optExtend_nil]
  | cons r rest ih =>
      simp only [buildByCat]
      by_cases hc : alHas cw (categorize_item r.item) = true
      · rw [if_pos hc]
        by_cases hu : 0 < r.a ∧ 0 < r.b
        · rw [if_pos hu]
          by_cases hcc : c = categorize_item r.item
          · subst hcc
            rw [ih, alGet_addToCat, if_pos rfl, if_pos hc, if_pos hc]
            have hfil : spec_cat_rels (r :: rest) (categorize_item r.item) =
                r.b / r.a :: spec_cat_rels rest (categorize_item r.item) := by
              simp only [spec_cat_rels, List.filter_cons]
              rw [if_pos (by simp [hu.1, hu.2])]
              simp
            rw [hfil]
            cases halG : alGet d (categorize_item r.item) <;> simp [optExtend]
          · rw [ih, alGet_addToCat,
              if_neg (fun h : c = categorize_item r.item => hcc h)]
            have hfil : spec_cat_rels (r :: rest) c = spec_cat_rels rest c := by
              simp only [spec_cat_rels, List.filter_cons]
              rw [if_neg (by
                simp only [Bool.and_eq_true, beq_iff_eq, decide_eq_true_eq]
                rintro ⟨h1, h2, h3⟩
                exact hcc h1.symm)]
            rw [hfil]
        · rw [if_neg hu, ih]
          have hfil : spec_cat_rels (r :: rest) c = spec_cat_rels rest c := by
            simp only [spec_cat_rels, List.filter_cons]
            rw [if_neg (by
              simp only [Bool.and_eq_true, beq_iff_eq, decide_eq_true_eq]
              rintro ⟨h1, h2, h3⟩
              exact hu ⟨h2, h3⟩)]
          rw [hfil]
      · rw [if_neg hc, ih]
        by_cases hcc : c = categorize_item r.item
        · subst hcc
          rw [if_neg hc, if_neg hc]
        · have hfil : spec_cat_rels (r :: rest) c = spec_cat_rels rest c := by
            simp only [spec_cat_rels, List.filter_cons]
            rw [if_neg (by
              simp only [Bool.and_eq_true, beq_iff_eq, decide_eq_true_eq]
              rintro ⟨h1, h2, h3⟩
              exact hcc h1.symm)]
          rw [hfil]

/-- Lookup in the finished by_cat dict, which starts empty: category c holds
exactly its declaratively described relatives, and only when the category is
weighted and non-empty. -/
lemma alGet_buildByCat_nil {α : Type} [LinearOrderedField α]
    (cw : List (String × α)) (rows : List (Row α)) (c : String) :
    alGet (buildByCat cw rows []) c =
      if alHas cw c ∧ spec_cat_rels rows c ≠ [] then some (spec_cat_rels rows c)
      else none := by
  rw [alGet_buildByCat]
  by_cases hc : alHas cw c = true
  · rw [if_pos hc]
    by_cases hs : spec_cat_rels rows c = []
    · simp [alGet, optExtend, hs, hc]
    · simp [alGet, optExtend, hs, hc, List.isEmpty_iff]
  · simp [alGet, optExtend, hc]

lemma keys_addToCat {α : Type} (d : List (String × List α)) (k : String) (v : α) :
    (addToCat d k v).map Prod.fst =
      if k ∈ d.map Prod.fst then d.map Prod.fst else d.map Prod.fst ++ [k] := by
  induction d with
  | nil => simp [addToCat]
  | cons p rest ih =>
      obtain ⟨k₀, vs⟩ := p
      by_cases h : k₀ = k
      · subst h; simp [addToCat]
      · simp only [addToCat]
        rw [if_neg (by simpa using h)]
        simp only [List.map_cons, List.mem_cons]
        rw [ih]
        by_cases h2 : k ∈ rest.map Prod.fst
        · simp [h2, Ne.symm h]
        · simp [h2, Ne.symm h]

lemma keys_nodup_addToCat {α : Type} (d : List (String × List α)) (k : String)
    (v : α) (h : (d.map Prod.fst).Nodup) :
    ((addToCat d k v).map Prod.fst).Nodup := by
  rw [keys_addToCat]
  by_cases h2 : k ∈ d.map Prod.fst
  · rw [if_pos h2]; exact h
  · rw [if_neg h2]
    refine List.Nodup.append h (List.nodup_singleton k) ?_
    intro a ha ha2
    rw [List.mem_singleton] at ha2
    exact h2 (ha2 ▸ ha)

lemma keys_nodup_buildByCat {α : Type} [LinearOrderedField α]
    (cw : List (String × α)) (rows : List (Row α)) :
    ∀ d : List (String × List α), (d.map Prod.fst).Nodup →
      ((buildByCat cw rows d).map Prod.fst).Nodup := by
  induction rows with
  | nil => intro d h; simpa [buildByCat]
  | cons r rest ih =>
      intro d h
      simp only [buildByCat]
      split_ifs with hc hu
      · exact ih _ (keys_nodup_addToCat _ _ _ h)
      · exact ih _ h
      · exact ih _ h

lemma alGet_of_mem_nodup {β : Type} (d : List (String × β))
    (hnd : (d.map Prod.fst).Nodup) (p : String × β) (hp : p ∈ d) :
    alGet d p.1 = some p.2 := by
  induction d with
  | nil => simp at hp
  | cons q rest ih =>
      rcases List.mem_cons.mp hp with h | h
      · subst h; simp [alGet]
      · have hmem : p.1 ∈ rest.map Prod.fst := List.mem_map.mpr ⟨p, h, rfl⟩
        rw [List.map_cons] at hnd
        have hnd2 := List.nodup_cons.mp hnd
        have hne : q.1 ≠ p.1 := fun he => hnd2.1 (he ▸ hmem)
        simp only [alGet]
        rw [if_neg (by simpa using hne)]
        exact ih hnd2.2 h

lemma addToCat_values {α : Type} (P : α → Prop) (k : String) (v : α)
    (hv : P v) (d : List (String × List α))
    (hd : ∀ p ∈ d, p.2 ≠ [] ∧ ∀ x ∈ p.2, P x) :
    ∀ p ∈ addToCat d k v, p.2 ≠ [] ∧ ∀ x ∈ p.2, P x := by
  induction d with
  | nil =>
      intro p hp
      simp only [addToCat, List.mem_singleton] at hp
      subst hp
      constructor
      · simp
      · intro x hx
        rw [List.mem_singleton] at hx
        exact hx ▸ hv
  | cons q rest ih =>
      obtain ⟨k₀, vs⟩ := q
      intro p hp
      simp only [addToCat] at hp
      by_cases h : k₀ == k
      · rw [if_pos h] at hp
        rcases List.mem_cons.mp hp with h2 | h2
        · subst h2
          constructor
          · simp
          · intro x hx
            rcases List.mem_append.mp hx with h3 | h3
            · exact (hd (k₀, vs) (List.mem_cons_self _ _)).2 x h3
            · rw [List.mem_singleton] at h3
              exact h3 ▸ hv
        · exact hd p (List.mem_cons_of_mem _ h2)
      · rw [if_neg h] at hp
        rcases List.mem_cons.mp hp with h2 | h2
        · exact h2 ▸ hd (k₀, vs) (List.mem_cons_self _ _)
        · exact ih (fun x hx => hd x (List.mem_cons_of_mem _ hx)) p h2

lemma buildByCat_values {α : Type} [LinearOrderedField α]
    (cw : List (String × α)) (rows : List (Row α)) :
    ∀ d : List (String × List α),
      (∀ p ∈ d, p.2 ≠ [] ∧ ∀ x ∈ p.2, 0 < x) →
      ∀ p ∈ buildByCat cw rows d, p.2 ≠ [] ∧ ∀ x ∈ p.2, 0 < x := by
  induction rows with
  | nil => intro d hd; simp only [buildByCat]; exact hd
  | cons r rest ih =>
      intro d hd
      simp only [buildByCat]
      split_ifs with hc hu
      · exact ih _ (addToCat_values _ _ _ (div_pos hu.2 hu.1) _ hd)
      · exact ih _ hd
      · exact ih _ hd

lemma buildByCat_no_usable {α : Type} [LinearOrderedField α]
    (cw : List (String × α)) (rows : List (Row α)) :
    ∀ d : List (String × List α), (∀ r ∈ rows, ¬(0 < r.a ∧ 0 < r.b)) →
      buildByCat cw rows d = d := by
  induction rows with
  | nil => intro d _; rfl
  | cons r rest ih =>
      intro d h
      simp only [buildByCat]
      split_ifs with hc hu
      · exact absurd hu (h r (List.mem_cons_self _ _))
      · exact ih d (fun x hx => h x (List.mem_cons_of_mem _ hx))
      · exact ih d (fun x hx => h x (List.mem_cons_of_mem _ hx))

/-- C1: on a non-empty list of rows whose two values are both strictly
positive, compute_unweighted returns the arithmetic mean over rows of
b/a - 1 and exp of the mean over rows of ln(b/a), minus one. -/
theorem C1_compute_unweighted (rows : List (Row ℝ)) (hne : rows ≠ [])
    (h : ∀ r ∈ rows, 0 < r.a ∧ 0 < r.b) :
    compute_unweighted rows =
      some ((rows.map (fun r => r.b / r.a - 1)).sum / (rows.length : ℝ),
            Real.exp ((rows.map (fun r => Real.log (r.b / r.a))).sum /
              (rows.length : ℝ)) - 1) := by
  have hr := rels_all_usable rows h
  have hne2 : (rows.map (fun r : Row ℝ => r.b / r.a)).isEmpty = false := by
    simp [List.isEmpty_iff, hne]
  simp only [compute_unweighted, hr, hne2, Bool.false_eq_true, if_false,
    List.map_map, List.length_map]
  rfl

/-- C1 witness: the spec scenario rows X and Y give arithmetic 0.75 and
geometric exp of the averaged logs, minus one. -/
theorem C1_compute_unweighted_witness :
    compute_unweighted [⟨"X", 1, 2⟩, ⟨"Y", 1, 1.5⟩] =
      some (0.75, Real.exp ((Real.log 2 + Real.log 1.5) / 2) - 1) := by
  rw [C1_compute_unweighted [⟨"X", 1, 2⟩, ⟨"Y", 1, 1.5⟩] (by simp)
    (by
      intro r hr
      rcases List.mem_cons.mp hr with h | h
      · subst h; norm_num
      · rw [List.mem_singleton] at h; subst h; norm_num)]
  norm_num

/-- C7: when no row is usable (both values strictly positive), both
unweighted measures are the NaN sentinel (none) and the weighted result is
the NaN sentinel (none); the embedding is total, so neither call raises. -/
theorem C7_empty_usable (rows : List (Row ℝ)) (cw : List (String × ℝ))
    (h : ∀ r ∈ rows, ¬(0 < r.a ∧ 0 < r.b)) :
    compute_unweighted rows = none ∧ compute_weighted rows cw = none := by
  constructor
  · simp [compute_unweighted, rels_no_usable rows h]
  · simp [compute_weighted, buildByCat_no_usable cw rows [] h]

/-- C7 witness: a single row with a zero base value under the default
weights. -/
theorem C7_empty_usable_witness :
    compute_unweighted [⟨"Eggs, large", 0, 1⟩] = none
    ∧ compute_weighted [⟨"Eggs, large", (0:ℝ), 1⟩] (DEFAULT_WEIGHTS ℝ) = none :=
  C7_empty_usable _ _ (by
    intro r hr
    rw [List.mem_singleton] at hr
    subst hr
    simp)

lemma mem_keys_iff_alGet_isSome {β : Type} (d : List (String × β)) (c : String) :
    c ∈ d.map Prod.fst ↔ (alGet d c).isSome = true := by
  induction d with
  | nil => simp [alGet]
  | cons p rest ih =>
      simp only [List.map_cons, List.mem_cons, alGet]
      by_cases h : p.1 = c
      · simp [h]
      · simp [h, Ne.symm h, ih]

/-- Every bucket of the finished by_cat dict holds exactly the declaratively
described relatives of its category. -/
lemma byCat_pairs {α : Type} [LinearOrderedField α] (cw : List (String × α))
    (rows : List (Row α)) :
    ∀ p ∈ buildByCat cw rows [], p.2 = spec_cat_rels rows p.1 := by
  intro p hp
  have hnd := keys_nodup_buildByCat cw rows [] (by simp)
  have hget := alGet_of_mem_nodup _ hnd p hp
  rw [alGet_buildByCat_nil] at hget
  by_cases hcond : alHas cw p.1 ∧ spec_cat_rels rows p.1 ≠ []
  · rw [if_pos hcond] at hget
    exact (Option.some.inj hget).symm
  · rw [if_neg hcond] at hget
    cases hget

/-- The inner weighted sum of compute_weighted, rewritten category by
category into the spec shape: normalized weight times the plain mean of the
within-category percentage changes. -/
lemma weighted_sum_eq {α : Type} [LinearOrderedField α] (rows : List (Row α))
    (cw : List (String × α)) (T : α) :
    ((buildByCat cw rows []).map (fun p =>
        if p.2.isEmpty then 0
        else (wval cw p.1 / T) *
          ((p.2.map (fun r => (r - 1) * (1 / (p.2.length : α)))).sum))).sum =
    (((buildByCat cw rows []).map Prod.fst).map (fun c =>
        (wval cw c / T) *
          (((spec_cat_rels rows c).map (fun r => r - 1)).sum /
            ((spec_cat_rels rows c).length : α)))).sum := by
  rw [List.map_map]
  refine congrArg List.sum (List.map_congr_left ?_)
  intro p hp
  have h2 := byCat_pairs cw rows p hp
  have h3 := (buildByCat_values cw rows [] (by simp) p hp).1
  show (if p.2.isEmpty then 0
      else (wval cw p.1 / T) *
        ((p.2.map (fun r => (r - 1) * (1 / (p.2.length : α)))).sum)) = _
  rw [if_neg (by simp [List.isEmpty_iff, h3])]
  rw [h2]
  rw [List.sum_map_mul_right, mul_one_div]
  rfl

/-- The final weighted value as the spec words it: sum over present
categories of normalized weight times the mean of the within-category
percentage changes, members of a category being its usable rows (each
weighted equally through the plain mean). -/
def spec_weighted {α : Type} [LinearOrderedField α] (rows : List (Row α))
    (cw : List (String × α)) : α :=
  let present := (buildByCat cw rows []).map Prod.fst
  let total := (present.map (fun c => wval cw c)).sum
  (present.map (fun c =>
    (wval cw c / total) *
      (((spec_cat_rels rows c).map (fun r => r - 1)).sum /
        ((spec_cat_rels rows c).length : α)))).sum

/-- C2 (amended): whenever at least one weighted category has a usable
member AND the weights of the present categories sum to a nonzero value, the
weighted percentage change compute_weighted returns is the sum over present
categories of normalized weight times the equal-weight mean of the member
percentage changes b/a - 1; on this region the error-faithful model agrees
with compute_weighted, so the normalization raises no exception.  The
nonzero-total hypothesis is forced: at a zero total the normalization
division raises ZeroDivisionError and nothing is returned (see the
counterexample). -/
theorem C2_compute_weighted {α : Type} [LinearOrderedField α]
    (rows : List (Row α)) (cw : List (String × α))
    (hne : buildByCat cw rows [] ≠ [])
    (hT : (((buildByCat cw rows []).map Prod.fst).map
      (fun c => wval cw c)).sum ≠ 0) :
    (∃ nw, compute_weighted rows cw = some (spec_weighted rows cw, nw))
    ∧ compute_weighted_exn rows cw = Except.ok (compute_weighted rows cw) := by
  have hE : (buildByCat cw rows []).isEmpty = false := by
    simp [List.isEmpty_iff, hne]
  constructor
  · refine ⟨((buildByCat cw rows []).map Prod.fst).map
      (fun c => (c, wval cw c /
        ((((buildByCat cw rows []).map Prod.fst).map (fun c => wval cw c)).sum))), ?_⟩
    simp only [compute_weighted]
    rw [if_neg (by simp [hE])]
    simp only [Option.some.injEq, Prod.mk.injEq]
    exact ⟨weighted_sum_eq rows cw _, trivial⟩
  · simp only [compute_weighted_exn, compute_weighted, hE, Bool.false_eq_true,
      if_false]
    rw [if_neg hT]

/-- C2 counterexample: with weights sending food_at_home to 0 and one usable
bread row, a mapped category has a usable member (the original claim's
hypothesis), yet normalizing divides the present weights by the zero total:
the Python call raises ZeroDivisionError and returns no pair at all, which
the error-faithful model renders as Except.error. -/
theorem C2_compute_weighted_cex :
    buildByCat [("food_at_home", (0:ℚ))] [⟨"Bread (white, pan)", 1, 2⟩] [] ≠ []
    ∧ compute_weighted_exn [⟨"Bread (white, pan)", (1:ℚ), 2⟩]
        [("food_at_home", 0)] = Except.error () :=
  ⟨by decide, by rfl⟩

/-- C2 witness: weights 0.6 on food and 0.4 on fuel with only food present,
through two members at relatives 1.10 and 1.20, give 0.15, the raising model
agreeing. -/
theorem C2_compute_weighted_witness :
    ((∃ nw, compute_weighted
        [⟨"Bread (white, pan)", (1:ℚ), 1.1⟩, ⟨"Eggs, large", 1, 1.2⟩]
        [("food_at_home", 0.6), ("transport_fuel", 0.4)] =
      some (spec_weighted
        [⟨"Bread (white, pan)", (1:ℚ), 1.1⟩, ⟨"Eggs, large", 1, 1.2⟩]
        [("food_at_home", 0.6), ("transport_fuel", 0.4)], nw))
    ∧ compute_weighted_exn
        [⟨"Bread (white, pan)", (1:ℚ), 1.1⟩, ⟨"Eggs, large", 1, 1.2⟩]
        [("food_at_home", 0.6), ("transport_fuel", 0.4)] =
      Except.ok (compute_weighted
        [⟨"Bread (white, pan)", (1:ℚ), 1.1⟩, ⟨"Eggs, large", 1, 1.2⟩]
        [("food_at_home", 0.6), ("transport_fuel", 0.4)]))
    ∧ spec_weighted
        [⟨"Bread (white, pan)", (1:ℚ), 1.1⟩, ⟨"Eggs, large", 1, 1.2⟩]
        [("food_at_home", 0.6), ("transport_fuel", 0.4)] = 0.15 :=
  ⟨C2_compute_weighted _ _ (by decide) (by decide), by decide⟩

/-- C3 (amended): when at least one weighted category has a usable member and
the input weights of the present categories do not sum to zero, the
normalized category weights returned by compute_weighted sum exactly to one,
and a category appears in the returned mapping exactly when it carries a
weight and has at least one usable member, so zero-member categories are
dropped and excluded from the normalization denominator.  The nonzero-total
hypothesis is forced: at an all-zero weight mapping the Python normalization
step divides by zero and raises, and the embedding returns weights summing to
zero (see the counterexample). -/
theorem C3_normalized_weights {α : Type} [LinearOrderedField α]
    (rows : List (Row α)) (cw : List (String × α))
    (hT : ((((buildByCat cw rows []).map Prod.fst)).map
      (fun c => wval cw c)).sum ≠ 0) :
    ∀ w nw, compute_weighted rows cw = some (w, nw) →
      ((nw.map Prod.snd).sum = 1
        ∧ ∀ c, c ∈ nw.map Prod.fst ↔
            (alHas cw c ∧ spec_cat_rels rows c ≠ [])) := by
  intro w nw heq
  by_cases hne : buildByCat cw rows [] = []
  · rw [compute_weighted] at heq
    rw [if_pos (by simp [List.isEmpty_iff, hne])] at heq
    cases heq
  · rw [compute_weighted] at heq
    rw [if_neg (by simp [List.isEmpty_iff, hne])] at heq
    simp only [Option.some.injEq, Prod.mk.injEq] at heq
    obtain ⟨hw, hnw⟩ := heq
    subst hnw
    constructor
    · rw [List.map_map]
      have hcomp : (Prod.snd ∘ fun c =>
          (c, wval cw c / (((buildByCat cw rows []).map Prod.fst).map
            (fun c => wval cw c)).sum)) =
          fun c => wval cw c / (((buildByCat cw rows []).map Prod.fst).map
            (fun c => wval cw c)).sum := rfl
      rw [hcomp, sum_map_div, div_self hT]
    · intro c
      rw [List.map_map]
      have hcomp : (Prod.fst ∘ fun c =>
          (c, wval cw c / (((buildByCat cw rows []).map Prod.fst).map
            (fun c => wval cw c)).sum)) = fun c => c := rfl
      rw [hcomp]
      have hid : List.map (fun c : String => c)
          ((buildByCat cw rows []).map Prod.fst) =
          (buildByCat cw rows []).map Prod.fst := List.map_id _
      rw [hid, mem_keys_iff_alGet_isSome, alGet_buildByCat_nil]
      by_cases hcond : alHas cw c ∧ spec_cat_rels rows c ≠ []
      · simp [hcond]
      · simp [hcond]

/-- C3 counterexample: a weight mapping is an input too, and the mapping
sending food_at_home to weight 0 with one usable bread row makes the
normalized weights sum to 0, not 1 (Python raises ZeroDivisionError at the
same input instead of producing a mapping summing to one). -/
theorem C3_normalized_weights_cex :
    compute_weighted [⟨"Bread (white, pan)", (1:ℚ), 2⟩] [("food_at_home", 0)]
      = some (0, [("food_at_home", 0)])
    ∧ ([("food_at_home", (0:ℚ))].map Prod.snd).sum ≠ 1 :=
  ⟨by decide, by decide⟩

/-- C3 witness: weight 3/5 on food_at_home with one usable bread row, where
the normalized weights sum to one and food_at_home alone is present. -/
theorem C3_normalized_weights_witness :
    ([("food_at_home", (1:ℚ))].map Prod.snd).sum = 1
    ∧ ∀ c, c ∈ [("food_at_home", (1:ℚ))].map Prod.fst ↔
        (alHas [("food_at_home", (3/5:ℚ))] c
          ∧ spec_cat_rels [⟨"Bread (white, pan)", (1:ℚ), 2⟩] c ≠ []) :=
  C3_normalized_weights [⟨"Bread (white, pan)", (1:ℚ), 2⟩] [("food_at_home", 3/5)]
    (by decide) 1 [("food_at_home", 1)] (by decide)

lemma find?_eq_of_split {β : Type} (p : β → Bool) (pre : List β) (q : β)
    (post : List β) (hpre : ∀ x ∈ pre, p x = false) (hq : p q = true) :
    (pre ++ q :: post).find? p = some q := by
  induction pre with
  | nil => simp [List.find?, hq]
  | cons x xs ih =>
      have hx := hpre x (List.mem_cons_self _ _)
      simp [List.find?, hx,
        ih (fun y hy => hpre y (List.mem_cons_of_mem _ hy))]

/-- Rows whose category carries no weight never touch the by_cat dict, so
filtering them away beforehand changes nothing. -/
lemma buildByCat_drop_unmapped {α : Type} [LinearOrderedField α]
    (cw : List (String × α)) (c : String) (hc : alHas cw c = false)
    (rows : List (Row α)) :
    ∀ d, buildByCat cw
        (rows.filter (fun r => !(categorize_item r.item == c))) d
      = buildByCat cw rows d := by
  induction rows with
  | nil => intro d; rfl
  | cons r rest ih =>
      intro d
      by_cases hcat : categorize_item r.item = c
      · rw [List.filter_cons, if_neg (by simp [hcat])]
        rw [ih]
        have hr : buildByCat cw (r :: rest) d = buildByCat cw rest d := by
          simp only [buildByCat]
          rw [if_neg (by rw [hcat, hc]; simp)]
        rw [hr]
      · rw [List.filter_cons, if_pos (by simp [hcat])]
        simp only [buildByCat]
        split_ifs with h1 h2
        · exact ih _
        · exact ih _
        · exact ih _

/-- C4 (amended): categorize_item assigns the category of the first rule one
of whose keywords occurs in the lowercased name, assigns "unclassified" when
no rule matches, and unclassified items are excluded from the weighted index
whenever the weight mapping does not itself carry the key "unclassified"
(the default weights do not).  The unconditional exclusion of the original
claim fails when a caller weight mapping names "unclassified" (see the
counterexample). -/
theorem C4_categorize (name : String) (rows : List (Row ℚ))
    (cw : List (String × ℚ)) :
    (∀ pre q post, CATEGORY_KEYWORDS = pre ++ q :: post →
       (∀ p ∈ pre, ruleMatches p name = false) → ruleMatches q name = true →
       categorize_item name = q.1)
    ∧ ((∀ q ∈ CATEGORY_KEYWORDS, ruleMatches q name = false) →
       categorize_item name = "unclassified")
    ∧ (alGet cw "unclassified" = none →
       compute_weighted rows cw =
         compute_weighted
           (rows.filter (fun r => !(categorize_item r.item == "unclassified")))
           cw)
    ∧ alGet (DEFAULT_WEIGHTS ℚ) "unclassified" = none := by
  refine ⟨?_, ?_, ?_, by decide⟩
  · intro pre q post hsplit hpre hq
    rw [categorize_item, hsplit, find?_eq_of_split _ pre q post hpre hq]
  · intro hall
    rw [categorize_item]
    have : CATEGORY_KEYWORDS.find? (fun q => ruleMatches q name) = none :=
      List.find?_eq_none.mpr (fun x hx => by simp [hall x hx])
    rw [this]
  · intro hnone
    have hc : alHas cw "unclassified" = false := by simp [alHas, hnone]
    have hb := buildByCat_drop_unmapped cw "unclassified" hc rows []
    simp only [compute_weighted, hb]

/-- C4 counterexample: a caller-supplied weight mapping that names the key
"unclassified" makes the unmatched item zzz contribute: dropping it changes
the result from a weighted value of 1 to none. -/
theorem C4_categorize_cex :
    compute_weighted [⟨"zzz", (1:ℚ), 2⟩] [("unclassified", 1)] =
      some (1, [("unclassified", 1)])
    ∧ compute_weighted
        (([⟨"zzz", (1:ℚ), 2⟩]).filter
          (fun r => !(categorize_item r.item == "unclassified")))
        [("unclassified", 1)] = none :=
  ⟨by decide, by decide⟩

/-- C4 witness: gasoline falls to transport_fuel through the fourth rule,
and under the default weights the unmatched item zzz is dropped without
changing the weighted index. -/
theorem C4_categorize_witness :
    categorize_item "Gasoline, regular" = "transport_fuel"
    ∧ compute_weighted [⟨"zzz", (1:ℚ), 2⟩] (DEFAULT_WEIGHTS ℚ) =
        compute_weighted
          (([⟨"zzz", (1:ℚ), 2⟩]).filter
            (fun r => !(categorize_item r.item == "unclassified")))
          (DEFAULT_WEIGHTS ℚ) :=
  ⟨(C4_categorize "Gasoline, regular" [] []).1
      [("food_at_home", ["bread", "chicken", "rice", "coffee", "potatoes",
          "banana", "peanut butter", "egg", "milk", "ground beef", "beef"]),
       ("utilities_electric", ["electricity"]),
       ("utilities_gas", ["natural gas", "per therm"])]
      ("transport_fuel", ["gasoline"]) [] (by decide) (by decide) (by decide),
   (C4_categorize "Gasoline, regular" [⟨"zzz", (1:ℚ), 2⟩]
      (DEFAULT_WEIGHTS ℚ)).2.2.1 (by decide)⟩

lemma alGet_mem {β : Type} (d : List (String × β)) (c : String) (v : β)
    (h : alGet d c = some v) : (c, v) ∈ d := by
  induction d with
  | nil => cases h
  | cons p rest ih =>
      obtain ⟨k, x⟩ := p
      rw [alGet] at h
      by_cases h2 : k = c
      · subst h2
        rw [if_pos (by simp)] at h
        obtain rfl := Option.some.inj h
        exact List.mem_cons_self _ _
      · rw [if_neg (by simpa using h2)] at h
        exact List.mem_cons_of_mem _ (ih h)

lemma wval_nonneg {α : Type} [LinearOrderedField α] (cw : List (String × α))
    (hw : ∀ p ∈ cw, 0 ≤ p.2) (c : String) : 0 ≤ wval cw c := by
  rw [wval]
  cases halG : alGet cw c with
  | none => simp
  | some v => simpa using hw (c, v) (alGet_mem cw c v halG)

/-- A nonempty list of positive entries has its equal-weight mean of the
decrements strictly above minus one. -/
lemma mean_gt_neg_one {α : Type} [LinearOrderedField α] (l : List α)
    (hne : l ≠ []) (hpos : ∀ x ∈ l, 0 < x) :
    -1 < (l.map (fun r => (r - 1) * (1 / (l.length : α)))).sum := by
  have hn : (0:α) < (l.length : α) := by
    exact_mod_cast List.length_pos.mpr hne
  have hsum : 0 < l.sum := List.sum_pos l hpos hne
  rw [List.sum_map_mul_right, sum_map_sub_one, mul_one_div, lt_div_iff₀ hn]
  linarith

/-- C10: with a non-empty list of usable rows and non-negative weights, both
unweighted measures and the weighted measure are strictly above minus one,
so the denominator 1 + p of the purchasing-power transform is never zero on
a pipeline output. -/
theorem C10_above_neg_one (rows : List (Row ℝ)) (cw : List (String × ℝ))
    (hne : rows ≠ []) (h : ∀ r ∈ rows, 0 < r.a ∧ 0 < r.b)
    (hw : ∀ p ∈ cw, 0 ≤ p.2) :
    (∀ ar geo, compute_unweighted rows = some (ar, geo) →
       (-1 < ar ∧ -1 < geo ∧ 1 + ar ≠ 0 ∧ 1 + geo ≠ 0))
    ∧ (∀ w nw, compute_weighted rows cw = some (w, nw) →
       (-1 < w ∧ 1 + w ≠ 0)) := by
  constructor
  · intro ar geo heq
    rw [C1_compute_unweighted rows hne h] at heq
    simp only [Option.some.injEq, Prod.mk.injEq] at heq
    obtain ⟨har, hgeo⟩ := heq
    have hn : (0:ℝ) < (rows.length : ℝ) := by
      exact_mod_cast List.length_pos.mpr hne
    have hsum : (0:ℝ) < (rows.map (fun r => r.b / r.a)).sum := by
      refine List.sum_pos _ ?_ (by simpa using hne)
      intro x hx
      obtain ⟨r, hrm, rfl⟩ := List.mem_map.mp hx
      exact div_pos (h r hrm).2 (h r hrm).1
    have hms : (rows.map (fun r => r.b / r.a - 1)).sum
        = (rows.map (fun r => r.b / r.a)).sum - rows.length := by
      have h2 := sum_map_sub_one (rows.map (fun r : Row ℝ => r.b / r.a))
      rw [List.map_map, List.length_map] at h2
      exact h2
    have har2 : -1 < ar := by
      rw [← har, hms, lt_div_iff₀ hn]
      linarith
    have hgeo2 : -1 < geo := by
      have hexp := Real.exp_pos ((rows.map
        (fun r => Real.log (r.b / r.a))).sum / (rows.length : ℝ))
      linarith [hgeo]
    exact ⟨har2, hgeo2, by linarith, by linarith⟩
  · intro w nw heq
    by_cases hbc : buildByCat cw rows [] = []
    · rw [compute_weighted, if_pos (by simp [List.isEmpty_iff, hbc])] at heq
      cases heq
    · rw [compute_weighted, if_neg (by simp [List.isEmpty_iff, hbc])] at heq
      simp only [Option.some.injEq, Prod.mk.injEq] at heq
      obtain ⟨hwv, hnw⟩ := heq
      have hvals := buildByCat_values cw rows [] (by simp)
      have hwnn := wval_nonneg cw hw
      have hTnn : 0 ≤ (((buildByCat cw rows []).map Prod.fst).map
          (fun c => wval cw c)).sum := by
        refine List.sum_nonneg ?_
        intro x hx
        obtain ⟨c, hc, rfl⟩ := List.mem_map.mp hx
        exact hwnn c
      have key : -1 < w := by
        by_cases hT0 : (((buildByCat cw rows []).map Prod.fst).map
            (fun c => wval cw c)).sum = 0
        · have hz : w = 0 := by
            rw [← hwv]
            refine List.sum_eq_zero ?_
            intro x hx
            obtain ⟨p, hp, rfl⟩ := List.mem_map.mp hx
            rw [hT0]
            by_cases he : p.2.isEmpty
            · rw [if_pos he]
            · rw [if_neg he, div_zero, zero_mul]
          rw [hz]; norm_num
        · have hTpos : 0 < (((buildByCat cw rows []).map Prod.fst).map
              (fun c => wval cw c)).sum := lt_of_le_of_ne hTnn (Ne.symm hT0)
          set T := (((buildByCat cw rows []).map Prod.fst).map
            (fun c => wval cw c)).sum with hTdef
          have hterm : ∀ p ∈ buildByCat cw rows [],
              0 ≤ (if p.2.isEmpty then 0
                else (wval cw p.1 / T) *
                  ((p.2.map (fun r => (r - 1) * (1 / (p.2.length : ℝ)))).sum))
                  + wval cw p.1 / T := by
            intro p hp
            obtain ⟨hne2, hpos⟩ := hvals p hp
            rw [if_neg (by simp [List.isEmpty_iff, hne2])]
            have hm := mean_gt_neg_one p.2 hne2 hpos
            have hq : 0 ≤ wval cw p.1 / T := div_nonneg (hwnn p.1) (le_of_lt hTpos)
            nlinarith
          have hex : ∃ p ∈ buildByCat cw rows [], 0 < wval cw p.1 := by
            by_contra hcon
            push_neg at hcon
            have : T = 0 := by
              rw [hTdef]
              refine List.sum_eq_zero ?_
              intro x hx
              obtain ⟨c, hc, rfl⟩ := List.mem_map.mp hx
              obtain ⟨c2, hc2⟩ := List.mem_map.mp hc
              have h1 := hcon c2 hc2.1
              have h2 := hwnn c
              rw [hc2.2] at h1
              linarith
            exact hT0 this
          obtain ⟨p0, hp0, hp0pos⟩ := hex
          have hstrict : 0 < (if p0.2.isEmpty then 0
              else (wval cw p0.1 / T) *
                ((p0.2.map (fun r => (r - 1) * (1 / (p0.2.length : ℝ)))).sum))
                + wval cw p0.1 / T := by
            obtain ⟨hne2, hpos⟩ := hvals p0 hp0
            rw [if_neg (by simp [List.isEmpty_iff, hne2])]
            have hm := mean_gt_neg_one p0.2 hne2 hpos
            have hq : 0 < wval cw p0.1 / T := div_pos hp0pos hTpos
            nlinarith
          have hmm : ((buildByCat cw rows []).map
              (fun p => wval cw p.1 / T)) =
              (((buildByCat cw rows []).map Prod.fst).map
                (fun c => wval cw c / T)) := by
            rw [List.map_map]
            rfl
          have hTT : ((buildByCat cw rows []).map
              (fun p => wval cw p.1 / T)).sum = T / T := by
            rw [hmm, sum_map_div, ← hTdef]
          have hsum1 : ((buildByCat cw rows []).map (fun p =>
              (if p.2.isEmpty then 0
                else (wval cw p.1 / T) *
                  ((p.2.map (fun r => (r - 1) * (1 / (p.2.length : ℝ)))).sum))
                + wval cw p.1 / T)).sum = w + 1 := by
            rw [List.sum_map_add, hwv]
            congr 1
            rw [hTT, div_self hT0]
          have hpos2 : 0 < w + 1 := by
            rw [← hsum1]
            exact sum_map_pos_of_mem _ _ hterm p0 hp0 hstrict
          linarith
      exact ⟨key, by linarith⟩

/-- C10 witness: a single usable row under the default weights. -/
theorem C10_above_neg_one_witness :
    (∀ ar geo, compute_unweighted [⟨"Bread (white, pan)", 1, 2⟩] = some (ar, geo) →
       (-1 < ar ∧ -1 < geo ∧ 1 + ar ≠ 0 ∧ 1 + geo ≠ 0))
    ∧ (∀ w nw, compute_weighted [⟨"Bread (white, pan)", (1:ℝ), 2⟩]
          (DEFAULT_WEIGHTS ℝ) = some (w, nw) →
       (-1 < w ∧ 1 + w ≠ 0)) :=
  C10_above_neg_one [⟨"Bread (white, pan)", 1, 2⟩] (DEFAULT_WEIGHTS ℝ)
    (by simp)
    (by
      intro r hr
      rw [List.mem_singleton] at hr
      subst hr
      norm_num)
    (by
      intro p hp
      simp only [DEFAULT_WEIGHTS, List.mem_cons, List.not_mem_nil,
        or_false] at hp
      rcases hp with hp | hp | hp | hp <;> subst hp <;> norm_num)

lemma ordIns_perm {β : Type} (le : β → β → Bool) (x : β) (l : List β) :
    (ordIns le x l).Perm (x :: l) := by
  induction l with
  | nil => simp [ordIns]
  | cons y ys ih =>
      rw [ordIns]
      by_cases h : le x y
      · rw [if_pos h]
      · rw [if_neg h]
        exact (List.Perm.cons y ih).trans (List.Perm.swap x y ys)

lemma pysort_perm {β : Type} (le : β → β → Bool) (l : List β) :
    (pysort le l).Perm l := by
  induction l with
  | nil => simp [pysort]
  | cons x xs ih =>
      rw [pysort]
      exact (ordIns_perm le x (pysort le xs)).trans (List.Perm.cons x ih)

lemma pairwise_ordIns {β : Type} (le : β → β → Bool)
    (htot : ∀ a b, le a b = true ∨ le b a = true)
    (htrans : ∀ a b c, le a b = true → le b c = true → le a c = true)
    (x : β) (l : List β) (hl : l.Pairwise (fun a b => le a b = true)) :
    (ordIns le x l).Pairwise (fun a b => le a b = true) := by
  induction l with
  | nil => simp [ordIns]
  | cons y ys ih =>
      rw [ordIns]
      by_cases h : le x y = true
      · rw [if_pos h]
        refine List.Pairwise.cons ?_ hl
        intro z hz
        rcases List.mem_cons.mp hz with rfl | hz2
        · exact h
        · exact htrans x y z h ((List.pairwise_cons.mp hl).1 z hz2)
      · rw [if_neg h]
        have hyx : le y x = true := by
          rcases htot x y with h2 | h2
          · exact absurd h2 h
          · exact h2
        refine List.Pairwise.cons ?_ (ih (List.pairwise_cons.mp hl).2)
        intro z hz
        have hz2 := (ordIns_perm le x ys).mem_iff.mp hz
        rcases List.mem_cons.mp hz2 with rfl | hz3
        · exact hyx
        · exact (List.pairwise_cons.mp hl).1 z hz3

lemma pairwise_pysort {β : Type} (le : β → β → Bool)
    (htot : ∀ a b, le a b = true ∨ le b a = true)
    (htrans : ∀ a b c, le a b = true → le b c = true → le a c = true)
    (l : List β) :
    (pysort le l).Pairwise (fun a b => le a b = true) := by
  induction l with
  | nil => simp [pysort]
  | cons x xs ih =>
      rw [pysort]
      exact pairwise_ordIns le htot htrans x _ ih

lemma filter_ordIns_neg {β : Type} (le : β → β → Bool) (p : β → Bool) (x : β)
    (hx : p x = false) (l : List β) :
    (ordIns le x l).filter p = l.filter p := by
  induction l with
  | nil => simp [ordIns, hx]
  | cons y ys ih =>
      rw [ordIns]
      by_cases h : le x y = true
      · rw [if_pos h]
        simp [List.filter_cons, hx]
      · rw [if_neg h]
        cases hpy : p y <;> simp [List.filter_cons, hpy, ih]

lemma filter_ordIns_pos {β : Type} (le : β → β → Bool) (p : β → Bool) (x : β)
    (hx : p x = true) (l : List β)
    (hpass : ∀ y ∈ l, le x y = false → p y = false) :
    (ordIns le x l).filter p = x :: l.filter p := by
  induction l with
  | nil => simp [ordIns, hx]
  | cons y ys ih =>
      rw [ordIns]
      by_cases h : le x y = true
      · rw [if_pos h]
        simp [List.filter_cons, hx]
      · rw [if_neg h]
        have hpy : p y = false :=
          hpass y (List.mem_cons_self _ _) (by simpa using h)
        simp only [List.filter_cons, hpy, Bool.false_eq_true, if_false]
        rw [ih (fun z hz h2 => hpass z (List.mem_cons_of_mem _ hz) h2)]

/-- Stability of the sort: elements with any fixed key keep their original
relative order, provided incomparability (a false le) forces distinct keys. -/
lemma filter_pysort {β γ : Type} [DecidableEq γ] (le : β → β → Bool)
    (key : β → γ) (hkey : ∀ a b, le a b = false → key a ≠ key b)
    (l : List β) (v : γ) :
    (pysort le l).filter (fun z => key z == v) =
      l.filter (fun z => key z == v) := by
  induction l with
  | nil => rfl
  | cons x xs ih =>
      rw [pysort]
      by_cases hx : key x = v
      · rw [filter_ordIns_pos le _ x (by simp [hx]) _ (by
          intro y hy hle
          have hne := hkey x y hle
          have : key y ≠ v := fun h2 => hne (hx.trans h2.symm)
          simp [this])]
        rw [ih]
        simp [List.filter_cons, hx]
      · rw [filter_ordIns_neg le _ x (by simp [hx])]
        rw [ih]
        simp [List.filter_cons, hx]

/-- C5 (amended): the reported top increases are the first five of the
stable descending sort of all (item, pct change) pairs and the top decreases
the first five of the stable ascending sort, regardless of sign: each top
list extends (by the dropped remainder) to a sorted permutation of all pairs
in which equal changes keep catalog order, and each has length five capped by
the number of rows.  The sign restriction of the original claim fails: with
a single rising row the top decreases list contains that positive change
(see the counterexample). -/
theorem C5_top_movers {α : Type} [LinearOrderedField α] (rows : List (Row α)) :
    (∃ rest, (top_increases rows ++ rest).Perm (pct_pairs rows)
      ∧ (top_increases rows ++ rest).Pairwise (fun x y => y.2 ≤ x.2)
      ∧ ∀ v : α, (top_increases rows ++ rest).filter (fun z => z.2 == v)
          = (pct_pairs rows).filter (fun z => z.2 == v))
    ∧ (∃ rest, (top_decreases rows ++ rest).Perm (pct_pairs rows)
      ∧ (top_decreases rows ++ rest).Pairwise (fun x y => x.2 ≤ y.2)
      ∧ ∀ v : α, (top_decreases rows ++ rest).filter (fun z => z.2 == v)
          = (pct_pairs rows).filter (fun z => z.2 == v))
    ∧ (top_increases rows).length = min 5 (pct_pairs rows).length
    ∧ (top_decreases rows).length = min 5 (pct_pairs rows).length := by
  have htotD : ∀ a b : String × α,
      decide (b.2 ≤ a.2) = true ∨ decide (a.2 ≤ b.2) = true := by
    intro a b
    rcases le_total b.2 a.2 with h | h
    · exact Or.inl (decide_eq_true h)
    · exact Or.inr (decide_eq_true h)
  have htransD : ∀ a b c : String × α, decide (b.2 ≤ a.2) = true →
      decide (c.2 ≤ b.2) = true → decide (c.2 ≤ a.2) = true := by
    intro a b c h1 h2
    exact decide_eq_true (le_trans (of_decide_eq_true h2) (of_decide_eq_true h1))
  have htotA : ∀ a b : String × α,
      decide (a.2 ≤ b.2) = true ∨ decide (b.2 ≤ a.2) = true := by
    intro a b
    rcases le_total a.2 b.2 with h | h
    · exact Or.inl (decide_eq_true h)
    · exact Or.inr (decide_eq_true h)
  have htransA : ∀ a b c : String × α, decide (a.2 ≤ b.2) = true →
      decide (b.2 ≤ c.2) = true → decide (a.2 ≤ c.2) = true := by
    intro a b c h1 h2
    exact decide_eq_true (le_trans (of_decide_eq_true h1) (of_decide_eq_true h2))
  refine ⟨⟨(pysort (fun x y : String × α => decide (y.2 ≤ x.2))
      (pct_pairs rows)).drop 5, ?_, ?_, ?_⟩,
    ⟨(pysort (fun x y : String × α => decide (x.2 ≤ y.2))
      (pct_pairs rows)).drop 5, ?_, ?_, ?_⟩, ?_, ?_⟩
  · rw [top_increases, List.take_append_drop]
    exact pysort_perm _ _
  · rw [top_increases, List.take_append_drop]
    refine (pairwise_pysort _ htotD htransD _).imp ?_
    intro a b h
    exact of_decide_eq_true h
  · intro v
    rw [top_increases, List.take_append_drop]
    refine filter_pysort _ Prod.snd ?_ _ v
    intro a b h
    have h2 : ¬(b.2 ≤ a.2) := of_decide_eq_false h
    exact fun he => h2 (le_of_eq he.symm)
  · rw [top_decreases, List.take_append_drop]
    exact pysort_perm _ _
  · rw [top_decreases, List.take_append_drop]
    refine (pairwise_pysort _ htotA htransA _).imp ?_
    intro a b h
    exact of_decide_eq_true h
  · intro v
    rw [top_decreases, List.take_append_drop]
    refine filter_pysort _ Prod.snd ?_ _ v
    intro a b h
    have h2 : ¬(a.2 ≤ b.2) := of_decide_eq_false h
    exact fun he => h2 (le_of_eq he)
  · rw [top_increases, List.length_take,
      (pysort_perm (fun x y : String × α => decide (y.2 ≤ x.2))
        (pct_pairs rows)).length_eq]
  · rw [top_decreases, List.length_take,
      (pysort_perm (fun x y : String × α => decide (x.2 ≤ y.2))
        (pct_pairs rows)).length_eq]

/-- C5 counterexample: one row with a rising price: its positive change
appears in the top decreases list, which the original claim says holds only
the largest negative changes (there are none). -/
theorem C5_top_movers_cex :
    top_decreases [⟨"X", (1:ℚ), 2⟩] = [("X", 1)] ∧ ¬((1:ℚ) < 0) :=
  ⟨by decide, by decide⟩
